import Mathlib

/-!
Verification of `skimage/restoration/deconvolution.py` (functions `wiener`,
`unsupervised_wiener`, `richardson_lucy`) against its natural-language
specification.

The embedding is generic over a linear ordered field `K` standing for the
floating point scalars.  A numpy array is modelled as a shape together with a
flat (row-major) list of complex entries `KC K`; real arrays are the subset
whose entries have zero imaginary part.  The `uft` spectral-transform module
and `scipy.signal.convolve2d` are external collaborators (spec §6) and are
modelled as parameters.  Fallible numpy behaviour (the truth value of a
multi-element array) is modelled with `Except`.
-/

/-- A complex scalar over the field `K`: numpy's complex dtype. -/
structure KC (K : Type) where
  re : K
  im : K
deriving DecidableEq

/-- Complex addition. -/
def KC.add [Add K] (a b : KC K) : KC K := ⟨a.re + b.re, a.im + b.im⟩

/-- Complex subtraction. -/
def KC.sub [Sub K] (a b : KC K) : KC K := ⟨a.re - b.re, a.im - b.im⟩

/-- Complex multiplication. -/
def KC.mul [Mul K] [Add K] [Sub K] (a b : KC K) : KC K :=
  ⟨a.re * b.re - a.im * b.im, a.re * b.im + a.im * b.re⟩

/-- Complex conjugate (`np.conj`). -/
def KC.conj [Neg K] (a : KC K) : KC K := ⟨a.re, -a.im⟩

/-- Squared modulus `re² + im²` (the value of `np.abs(z)**2`). -/
def KC.normSq [Mul K] [Add K] (a : KC K) : K := a.re * a.re + a.im * a.im

/-- Scaling a complex scalar by a real scalar. -/
def KC.smul [Mul K] (c : K) (a : KC K) : KC K := ⟨c * a.re, c * a.im⟩

/-- Dividing a complex scalar by a real scalar (elementwise numpy `z / p`). -/
def KC.divR [Div K] (a : KC K) (p : K) : KC K := ⟨a.re / p, a.im / p⟩

/-- Full complex division `a / b = a·conj(b) / |b|²`. -/
def KC.div [Field K] (a b : KC K) : KC K :=
  KC.divR (KC.mul a (KC.conj b)) (KC.normSq b)

/-- Embedding a real scalar. -/
def KC.ofReal [Zero K] (c : K) : KC K := ⟨c, 0⟩

/-- A numpy ndarray: a shape and the row-major flat data. -/
structure NpArr (K : Type) where
  shape : List Nat
  data : List (KC K)
deriving DecidableEq

/-- Elementwise binary operation; the shapes coincide in every use site, so the
result carries the left operand's shape. -/
def NpArr.map2 (f : KC K → KC K → KC K) (a b : NpArr K) : NpArr K :=
  ⟨a.shape, List.zipWith f a.data b.data⟩

/-- Elementwise sum (`a + b`). -/
def NpArr.addA [Add K] (a b : NpArr K) : NpArr K := NpArr.map2 KC.add a b

/-- Elementwise difference (`a - b`). -/
def NpArr.subA [Sub K] (a b : NpArr K) : NpArr K := NpArr.map2 KC.sub a b

/-- Elementwise product (`a * b`). -/
def NpArr.mulA [Mul K] [Add K] [Sub K] (a b : NpArr K) : NpArr K :=
  NpArr.map2 KC.mul a b

/-- Elementwise quotient (`a / b`). -/
def NpArr.divA [Field K] (a b : NpArr K) : NpArr K := NpArr.map2 KC.div a b

/-- A constant array of the given shape (`c * np.ones(shape)`). -/
def NpArr.const [Zero K] (shape : List Nat) (c : K) : NpArr K :=
  ⟨shape, List.replicate shape.prod (KC.ofReal c)⟩

/-- The function `np.iscomplex`: the elementwise boolean array `imag != 0`. -/
def np_iscomplex [Zero K] [DecidableEq K] (a : NpArr K) : List Bool :=
  a.data.map (fun z => decide (z.im ≠ 0))

/-- Taking the truth value of a boolean numpy array (`not arr` first calls
`bool(arr)`): defined for a single element, a `ValueError` otherwise. -/
def pyBoolArr (l : List Bool) : Except String Bool :=
  match l with
  | [b] => Except.ok b
  | _ => Except.error "ValueError: truth value of an array is ambiguous"

/-- Taking the truth value of a numeric numpy array (`not arr` on the array
itself): the single element compared with zero, a `ValueError` otherwise. -/
def npTruthy [Zero K] [DecidableEq K] (a : NpArr K) : Except String Bool :=
  match a.data with
  | [z] => Except.ok (decide (¬(z.re = 0 ∧ z.im = 0)))
  | _ => Except.error "ValueError: truth value of an array is ambiguous"

/-- Modelled from the spec: the Spectral Transform Provider (§6) — the `uft`
module, which is not part of `src/`.  `laplacian` produces the default
regularisation operator and its metadata, `ir2tf` converts an impulse response
to a transfer function, `urfft2`/`uirfft2` are the unitary real transform
pair, `ufft2`/`uifft2` the full complex pair, and `image_quad_norm` the
frequency-domain quadratic norm. -/
structure UFT (K : Type) where
  laplacian : Nat → List Nat → NpArr K × NpArr K
  ir2tf : NpArr K → List Nat → NpArr K
  urfft2 : NpArr K → NpArr K
  uirfft2 : NpArr K → NpArr K
  ufft2 : NpArr K → NpArr K
  uifft2 : NpArr K → NpArr K
  image_quad_norm : NpArr K → K

/-- Lines 132–140 of `wiener`: resolve the regularisation operator (default
Laplacian when absent, `ir2tf` conversion guarded by
`if not np.iscomplex(reg)`), then resolve the PSF into the transfer function
by the shape comparison `psf.shape != reg.shape`.  Returns the resolved pair
`(reg, trans_func)`. -/
def wiener_dispatch [Zero K] [DecidableEq K] (P : UFT K) (image psf : NpArr K)
    (reg : Option (NpArr K)) : Except String (NpArr K × NpArr K) :=
  (pyBoolArr (np_iscomplex (match reg with
      | none => (P.laplacian image.shape.length image.shape).1
      | some r => r))).bind (fun c =>
    Except.ok (
      let reg0 := match reg with
        | none => (P.laplacian image.shape.length image.shape).1
        | some r => r
      let reg1 := if c then reg0 else P.ir2tf reg0 image.shape
      let trans_func := if psf.shape ≠ reg1.shape then P.ir2tf psf image.shape else psf
      (reg1, trans_func)))

/-- Lines 142–147 of `wiener`: the filter
`conj(H) / (|H|² + balance·|D|²)` applied to the transformed image, with the
real unitary pair when `is_real` and the full pair otherwise.  `cabs` is
numpy's complex modulus (`np.abs`), so `(cabs z)^2` is `np.abs(z)**2`. -/
def wiener_core [Field K] (cabs : KC K → K) (P : UFT K)
    (trans_func reg : NpArr K) (balance : K) (image : NpArr K)
    (is_real : Bool) : NpArr K :=
  let wiener_filter : NpArr K :=
    ⟨trans_func.shape,
      List.zipWith
        (fun t r => KC.divR (KC.conj t) ((cabs t) ^ 2 + balance * (cabs r) ^ 2))
        trans_func.data reg.data⟩
  if is_real then P.uirfft2 (NpArr.mulA wiener_filter (P.urfft2 image))
  else P.uifft2 (NpArr.mulA wiener_filter (P.ufft2 image))

/-- The function `wiener(image, psf, balance, reg=None, is_real=True)`
(lines 132–147): dispatch, then the filter computation. -/
def wiener [Field K] [DecidableEq K] (cabs : KC K → K) (P : UFT K)
    (image psf : NpArr K) (balance : K) (reg : Option (NpArr K))
    (is_real : Bool) : Except String (NpArr K) :=
  (wiener_dispatch P image psf reg).bind (fun rt =>
    Except.ok (wiener_core cabs P rt.2 rt.1 balance image is_real))

/-- The merged Gibbs parameters (line 222–224): threshold, max_iter, min_iter,
burnin, and whether a truthy callback was supplied. -/
structure GParams (K : Type) where
  threshold : K
  max_iter : Nat
  min_iter : Nat
  burnin : Nat
  callback : Bool
deriving DecidableEq

/-- A caller-supplied `user_params` dictionary: each key optionally present. -/
structure UserParams (K : Type) where
  threshold : Option K
  max_iter : Option Nat
  min_iter : Option Nat
  burnin : Option Nat
  callback : Option Bool

/-- Lines 222–224: the defaults
`{'threshold': 1e-4, 'max_iter': 200, 'min_iter': 30, 'burnin': 15,
'callback': None}` updated by `user_params or {}`. -/
def resolveParams [Field K] (user_params : Option (UserParams K)) : GParams K :=
  match user_params with
  | none => ⟨1 / 10000, 200, 30, 15, false⟩
  | some u => ⟨u.threshold.getD (1 / 10000), u.max_iter.getD 200,
      u.min_iter.getD 30, u.burnin.getD 15, u.callback.getD false⟩

/-- The loop-constant data of the Gibbs sampler: the transformed image, the
transfer functions, the precomputed `|H|²`/`|D|²` (lines 249–250), the stored
`image.size` (line 254), the quadratic-norm reduction, and the random draws
(the two standard-normal arrays and the two Gamma draws of each iteration,
modelled as oracles indexed by the iteration). -/
structure GEnv (K : Type) where
  image : List (KC K)
  ishape : List Nat
  trans_fct : List (KC K)
  reg : List (KC K)
  atf2 : List K
  areg2 : List K
  image_size : Nat
  quadNorm : NpArr K → K
  nre : Nat → List K
  nim : Nat → List K
  gammaN : Nat → K → K → K
  gammaX : Nat → K → K → K

/-- The mutable state of the sampling loop: the two chains (line 245), the
posterior-mean accumulator and its previous value (lines 237–239), and
`delta` (`none` models the initial `np.NAN`, line 242). -/
structure GState (K : Type) where
  gn_chain : List K
  gx_chain : List K
  x_postmean : List (KC K)
  prev_x_postmean : List (KC K)
  delta : Option K
deriving DecidableEq

/-- Three-list pointwise zip. -/
def zipWith3 (f : α → β → γ → δ) : List α → List β → List γ → List δ
  | a :: as, b :: bs, c :: cs => f a b c :: zipWith3 f as bs cs
  | _, _, _ => []

/-- Line 262: `precision = gn_chain[-1] * atf2 + gx_chain[-1] * areg2`. -/
def gibbsPrecision [Field K] (env : GEnv K) (s : GState K) : List K :=
  List.zipWith
    (fun a r => s.gn_chain.getLastD 0 * a + s.gx_chain.getLastD 0 * r)
    env.atf2 env.areg2

/-- Lines 263–265: `excursion = np.sqrt(0.5) / np.sqrt(precision) *
(standard_normal + 1j * standard_normal)`, `sq` being `np.sqrt`. -/
def gibbsExcursion [Field K] (sq : K → K) (env : GEnv K) (i : Nat)
    (s : GState K) : List (KC K) :=
  zipWith3 (fun p n1 n2 => KC.smul (sq (1 / 2) / sq p) ⟨n1, n2⟩)
    (gibbsPrecision env s) (env.nre i) (env.nim i)

/-- Lines 268–271: `wiener_filter = gn_chain[-1] * np.conj(trans_fct) /
precision` and `x_sample = wiener_filter * image + excursion`. -/
def gibbsSample [Field K] (sq : K → K) (env : GEnv K) (i : Nat)
    (s : GState K) : List (KC K) :=
  List.zipWith KC.add
    (List.zipWith KC.mul
      (List.zipWith
        (fun t p => KC.divR (KC.smul (s.gn_chain.getLastD 0) (KC.conj t)) p)
        env.trans_fct (gibbsPrecision env s))
      env.image)
    (gibbsExcursion sq env i s)

/-- One iteration body of the Gibbs loop (lines 262–295): sample the image,
append the `npr.gamma` draws to both chains, accumulate the posterior mean
after burn-in, recompute `delta`, and store the previous mean. -/
def gibbsStep [Field K] (sq : K → K) (cabs : KC K → K) (env : GEnv K)
    (p : GParams K) (i : Nat) (s : GState K) : GState K :=
  let x_sample := gibbsSample sq env i s
  let gn_chain := s.gn_chain ++ [env.gammaN i ((env.image_size : K) / 2)
    (2 / env.quadNorm ⟨env.ishape,
      List.zipWith KC.sub env.image (List.zipWith KC.mul x_sample env.trans_fct)⟩)]
  let gx_chain := s.gx_chain ++ [env.gammaX i (((env.image_size : K) - 1) / 2)
    (2 / env.quadNorm ⟨env.ishape, List.zipWith KC.mul x_sample env.reg⟩)]
  let x_postmean := if p.burnin < i
    then List.zipWith KC.add s.prev_x_postmean x_sample
    else s.x_postmean
  let delta := if p.burnin + 1 < i then
      some (((List.zipWith (fun a b => cabs (KC.sub a b))
          (x_postmean.map (fun z => KC.divR z ((i : K) - (p.burnin : K))))
          (s.prev_x_postmean.map
            (fun z => KC.divR z ((i : K) - (p.burnin : K) - 1)))).sum
        / (x_postmean.map cabs).sum) / ((i : K) - (p.burnin : K)))
    else s.delta
  ⟨gn_chain, gx_chain, x_postmean, x_postmean, delta⟩

/-- Line 298's `delta < params['threshold']` with `delta` possibly `NaN`: a
`NaN` comparison is false. -/
def deltaLtB [LinearOrderedField K] (d : Option K) (t : K) : Bool :=
  match d with
  | none => false
  | some v => decide (v < t)

/-- Line 298: `iteration > params['min_iter'] and delta < params['threshold']`. -/
def gibbsBreak [LinearOrderedField K] (p : GParams K) (i : Nat)
    (s : GState K) : Bool :=
  decide (p.min_iter < i) && deltaLtB s.delta p.threshold

/-- The `for iteration in range(max_iter)` loop (lines 258–299) run from
iteration `i` with `n` iterations remaining; returns the final value of the
loop variable and the final state. -/
def gibbsRun [LinearOrderedField K] (sq : K → K) (cabs : KC K → K)
    (env : GEnv K) (p : GParams K) : Nat → Nat → GState K → Nat × GState K
  | 0, i, s => (i, s)
  | n + 1, i, s =>
    if n = 0 then (i, gibbsStep sq cabs env p i s)
    else if gibbsBreak p i (gibbsStep sq cabs env p i s) then
      (i, gibbsStep sq cabs env p i s)
    else gibbsRun sq cabs env p n (i + 1) (gibbsStep sq cabs env p i s)

/-- The initial loop state (lines 237–245): zero accumulators of the transfer
function's size, `delta = NaN`, chains `[1]` and `[1]`. -/
def gibbsInit [Field K] (n : Nat) : GState K :=
  ⟨[1], [1], List.replicate n (KC.ofReal 0), List.replicate n (KC.ofReal 0), none⟩

/-- The state after the first `n` iterations of the loop, ignoring the break
(the body is deterministic given the oracles, so this is the loop's trace). -/
def gibbsIter [LinearOrderedField K] (sq : K → K) (cabs : KC K → K)
    (env : GEnv K) (p : GParams K) : Nat → GState K
  | 0 => gibbsInit env.trans_fct.length
  | n + 1 => gibbsStep sq cabs env p n (gibbsIter sq cabs env p n)

/-- Lines 237–305 after the setup: run the loop, divide the accumulated mean
by `(iteration - burnin)`, inverse-transform, and return it with both chains. -/
def uw_core [LinearOrderedField K] (sq : K → K) (cabs : KC K → K) (P : UFT K)
    (env : GEnv K) (p : GParams K) (tshape : List Nat) :
    NpArr K × (List K × List K) :=
  let r := gibbsRun sq cabs env p p.max_iter 0 (gibbsInit env.trans_fct.length)
  (P.uirfft2 ⟨tshape,
      r.2.x_postmean.map (fun z => KC.divR z ((r.1 : K) - (p.burnin : K)))⟩,
   (r.2.gn_chain, r.2.gx_chain))

/-- Lines 226–234 of `unsupervised_wiener`: `if not reg:` substitutes the
default Laplacian (numpy truthiness of the supplied array), the
`if not np.iscomplex(reg):` conversion, and the shape-based PSF dispatch. -/
def uw_setup [Zero K] [DecidableEq K] (P : UFT K) (image psf : NpArr K)
    (reg : Option (NpArr K)) : Except String (NpArr K × NpArr K) :=
  (match reg with
    | none => Except.ok ((P.laplacian image.shape.length image.shape).1)
    | some a => (npTruthy a).bind (fun b =>
        Except.ok (if b then a
          else (P.laplacian image.shape.length image.shape).1))).bind
  (fun reg0 =>
    (pyBoolArr (np_iscomplex reg0)).bind (fun c =>
      Except.ok (
        let reg1 := if c then reg0 else P.ir2tf reg0 image.shape
        let trans_fct := if psf.shape ≠ reg1.shape
          then P.ir2tf psf image.shape else psf
        (reg1, trans_fct))))

/-- The random draws of one run: the two standard-normal arrays and the two
Gamma draws of each iteration, as oracles (the code uses the process-wide
numpy generator). -/
structure RNG (K : Type) where
  nre : Nat → List K
  nim : Nat → List K
  gammaN : Nat → K → K → K
  gammaX : Nat → K → K → K

/-- The function `unsupervised_wiener(image, psf, reg=None, user_params=None)`
(lines 222–305): parameter resolution, setup, precomputation of `|H|²`/`|D|²`
and the transformed image, then the Gibbs loop and finalization. -/
def unsupervised_wiener [LinearOrderedField K] (sq : K → K) (cabs : KC K → K)
    (P : UFT K) (rng : RNG K) (image psf : NpArr K) (reg : Option (NpArr K))
    (user_params : Option (UserParams K)) :
    Except String (NpArr K × (List K × List K)) :=
  let p := resolveParams user_params
  (uw_setup P image psf reg).bind (fun rt =>
    Except.ok (
      let timage := P.urfft2 image
      uw_core sq cabs P
        ⟨timage.data, timage.shape, rt.2.data, rt.1.data,
         rt.2.data.map (fun z => (cabs z) ^ 2),
         rt.1.data.map (fun z => (cabs z) ^ 2),
         image.shape.prod, P.image_quad_norm,
         rng.nre, rng.nim, rng.gammaN, rng.gammaX⟩
        p rt.2.shape))

/-- The function `richardson_lucy(image, psf, iterations=50)` (lines 340–348):
uniform `0.5` initial estimate, `psf[::-1, ::-1]` mirror (for a 2-D row-major
array, reversal of the flat data), and `iterations` multiplicative updates
through the external convolution `conv2d`. -/
def richardson_lucy [Field K] (conv2d : NpArr K → NpArr K → NpArr K)
    (image psf : NpArr K) (iterations : Nat) : NpArr K :=
  let psf_mirror : NpArr K := ⟨psf.shape, psf.data.reverse⟩
  (List.range iterations).foldl
    (fun im_deconv _ =>
      NpArr.mulA im_deconv
        (conv2d (NpArr.divA image (conv2d im_deconv psf)) psf_mirror))
    (NpArr.const image.shape (1 / 2))

/-- Sum of the entries of an array. -/
def sumData [Add K] [Zero K] (a : NpArr K) : KC K :=
  a.data.foldr KC.add (KC.ofReal 0)

/-- A concrete sample Spectral Transform Provider over `ℚ`, used to evaluate
the embedding at closed inputs: the transform pairs are the identity, the
impulse-response conversion fills the target shape with the response's total
mass (the DC coefficient), the Laplacian operator fills the target shape with
the constant `4`, and the quadratic norm is the sum of squared moduli. -/
def trivUFT : UFT ℚ :=
  ⟨fun _ shape => (⟨shape, List.replicate shape.prod ⟨4, 0⟩⟩,
                   ⟨shape, List.replicate shape.prod ⟨4, 0⟩⟩),
   fun a shape => ⟨shape, List.replicate shape.prod (sumData a)⟩,
   fun a => a, fun a => a, fun a => a, fun a => a,
   fun a => (a.data.map (fun z => KC.normSq z)).sum⟩

/-- A concrete modulus stand-in over `ℚ` (any fixed function works for the
closed evaluations, which never take square roots). -/
def qabs (z : KC ℚ) : ℚ := |z.re| + |z.im|

/-- Concrete random oracles over `ℚ`: zero normal draws on one frequency bin
and constant-one Gamma draws. -/
def oneRNG : RNG ℚ :=
  ⟨fun _ => [0], fun _ => [0], fun _ _ _ => 1, fun _ _ _ => 1⟩

/-- A 2×2 test image. -/
def img2 : NpArr ℚ := ⟨[2, 2], [⟨1, 0⟩, ⟨2, 0⟩, ⟨3, 0⟩, ⟨4, 0⟩]⟩

/-- A 1×1 test image. -/
def img1 : NpArr ℚ := ⟨[1, 1], [⟨2, 0⟩]⟩

/-- The 1×1 unit-peak (identity-blur) impulse response. -/
def psf1 : NpArr ℚ := ⟨[1, 1], [⟨1, 0⟩]⟩

/-- A real-valued 1×1 kernel with no complex entry. -/
def psfReal : NpArr ℚ := ⟨[1, 1], [⟨3, 0⟩]⟩

/-- A singleton purely imaginary regularizer (a complex transfer function). -/
def regC : NpArr ℚ := ⟨[1, 1], [⟨0, 1⟩]⟩

/-- A singleton zero (numpy-falsy) regularizer. -/
def regZero : NpArr ℚ := ⟨[1, 1], [⟨0, 0⟩]⟩

/-- The 3×3 unit-peak (identity-blur) impulse response. -/
def delta3 : NpArr ℚ :=
  ⟨[3, 3], [⟨0, 0⟩, ⟨0, 0⟩, ⟨0, 0⟩, ⟨0, 0⟩, ⟨1, 0⟩, ⟨0, 0⟩, ⟨0, 0⟩, ⟨0, 0⟩, ⟨0, 0⟩]⟩

/-- A `user_params` dictionary with `burnin` not below `min_iter`:
`{'max_iter': 5, 'min_iter': 3, 'burnin': 9}`. -/
def badParams : UserParams ℚ := ⟨none, some 5, some 3, some 9, none⟩

/-- A one-bin concrete loop environment over `ℚ`: one-pixel transformed image
`2`, transfer function `1`, regularizer `i`, unit `|H|²`/`|D|²`, sum-of-squares
quadratic norm, zero normal draws, constant-one Gamma draws. -/
def env1 : GEnv ℚ :=
  ⟨[⟨2, 0⟩], [1, 1], [⟨1, 0⟩], [⟨0, 1⟩], [1], [1], 1,
   fun a => (a.data.map (fun z => KC.normSq z)).sum,
   fun _ => [0], fun _ => [0], fun _ _ _ => 1, fun _ _ _ => 1⟩

/-- Concrete loop parameters over `ℚ`: threshold `1`, `max_iter 4`,
`min_iter 1`, `burnin 0`. -/
def p1 : GParams ℚ := ⟨1, 4, 1, 0, false⟩

/-- Concrete loop parameters with `burnin` not below `min_iter` and
`max_iter`: threshold `1`, `max_iter 3`, `min_iter 2`, `burnin 7`. -/
def pBad : GParams ℚ := ⟨1, 3, 2, 7, false⟩

/-- Helper: taking the truth value of a boolean array whose length is not one
raises the numpy `ValueError`. -/
theorem pyBoolArr_of_length_ne_one (l : List Bool) (h : l.length ≠ 1) :
    pyBoolArr l = Except.error "ValueError: truth value of an array is ambiguous" := by
  cases l with
  | nil => rfl
  | cons a t =>
    cases t with
    | nil => simp at h
    | cons b t2 => rfl

/-- C1: `wiener` is claimed to return
`uirfft2(conj(H)/(|H|²+balance·|D|²) · urfft2(image))` for every 2-D real
image, PSF and positive balance, with the default Laplacian when `reg` is
absent; the code instead raises at `if not np.iscomplex(reg):` (a
multi-element boolean array has no truth value) before the filter is ever
computed.  Evaluation of the code at the failing input
`image = [[1,2],[3,4]]`, `psf = [[1]]`, `balance = 1`, `reg` absent. -/
theorem wiener_default_reg_valueerror :
    wiener qabs trivUFT img2 psf1 1 none true
      = Except.error "ValueError: truth value of an array is ambiguous" := rfl

/-- C4 counterexample: a real-valued PSF (no complex entry) whose shape equals
the resolved regularizer's shape is used directly as the transfer function —
it is not converted, although conversion would change it — so PSF
representation is not dispatched on value type. -/
theorem wiener_real_psf_used_as_transfer :
    wiener_dispatch trivUFT img2 psfReal (some regC) = Except.ok (regC, psfReal)
    ∧ np_iscomplex psfReal = [false]
    ∧ trivUFT.ir2tf psfReal img2.shape ≠ psfReal := ⟨rfl, rfl, by decide⟩

/-- C4 amended: in `wiener`'s dispatch the regularizer is converted exactly
when its singleton `np.iscomplex` entry is false (a regularizer with any
other number of elements raises), and the PSF is treated as an
already-transformed transfer function exactly when its shape equals the
resolved regularizer's shape, regardless of the PSF's entries. -/
theorem wiener_dispatch_spec [Field K] [DecidableEq K] (P : UFT K)
    (image psf r : NpArr K) :
    (∀ z : KC K, r.data = [z] →
      wiener_dispatch P image psf (some r)
        = Except.ok
            (if z.im ≠ 0 then r else P.ir2tf r image.shape,
             if psf.shape ≠ (if z.im ≠ 0 then r else P.ir2tf r image.shape).shape
               then P.ir2tf psf image.shape else psf))
    ∧ (r.data.length ≠ 1 →
      wiener_dispatch P image psf (some r)
        = Except.error "ValueError: truth value of an array is ambiguous") := by
  constructor
  · intro z hz
    by_cases h : z.im = 0
    · simp [wiener_dispatch, np_iscomplex, hz, pyBoolArr, h, Except.bind]
    · simp [wiener_dispatch, np_iscomplex, hz, pyBoolArr, h, Except.bind]
  · intro hlen
    have : (np_iscomplex r).length ≠ 1 := by
      simpa [np_iscomplex] using hlen
    simp [wiener_dispatch, pyBoolArr_of_length_ne_one _ this, Except.bind]

/-- C4 amended, witness: a real singleton regularizer is converted and the
non-matching-shape PSF is converted to the image's shape. -/
theorem wiener_dispatch_spec_witness :
    wiener_dispatch trivUFT img2 psf1 (some regZero)
      = Except.ok (⟨[2, 2], List.replicate 4 ⟨0, 0⟩⟩,
                   ⟨[2, 2], List.replicate 4 ⟨1, 0⟩⟩) := by
  have h := (wiener_dispatch_spec trivUFT img2 psf1 regZero).1 ⟨0, 0⟩ rfl
  rw [h]
  norm_num [trivUFT, regZero, img2, psf1, sumData, KC.ofReal, KC.add, List.replicate]

/-- C6 counterexample: a caller-supplied zero singleton regularizer is numpy
falsy, so `if not reg:` silently replaces it by the default Laplacian — the
result coincides with the no-regularizer call and is unrelated to the
supplied array — although the claim says substitution happens exactly when no
regularizer is supplied. -/
theorem uw_setup_discards_falsy_reg :
    uw_setup trivUFT img1 psf1 (some regZero) = uw_setup trivUFT img1 psf1 none
    ∧ uw_setup trivUFT img1 psf1 (some regZero)
        = Except.ok (⟨[1, 1], [⟨4, 0⟩]⟩, psf1)
    ∧ trivUFT.ir2tf regZero img1.shape ≠ (⟨[1, 1], [⟨4, 0⟩]⟩ : NpArr ℚ)
    ∧ regZero ≠ (⟨[1, 1], [⟨4, 0⟩]⟩ : NpArr ℚ) := by
  refine ⟨by rfl, ?_, ?_, ?_⟩
  · norm_num [uw_setup, npTruthy, np_iscomplex, pyBoolArr, trivUFT, img1, psf1,
      regZero, sumData, KC.ofReal, KC.add, Except.bind]
  · norm_num [trivUFT, regZero, img1, sumData, KC.ofReal, KC.add]
  · norm_num [regZero]

/-- C6 amended: the default Laplacian is substituted when the regularizer is
absent or numpy-falsy (a zero singleton); a truthy singleton is accepted and
converted when not complex; any other regularizer raises at `if not reg:`. -/
theorem uw_setup_spec [Zero K] [DecidableEq K] (P : UFT K)
    (image psf a : NpArr K) :
    (∀ z : KC K, a.data = [z] → ¬(z.re = 0 ∧ z.im = 0) →
      uw_setup P image psf (some a)
        = Except.ok
            (if z.im ≠ 0 then a else P.ir2tf a image.shape,
             if psf.shape ≠ (if z.im ≠ 0 then a else P.ir2tf a image.shape).shape
               then P.ir2tf psf image.shape else psf))
    ∧ (a.data = [⟨0, 0⟩] →
      uw_setup P image psf (some a) = uw_setup P image psf none)
    ∧ (a.data.length ≠ 1 →
      uw_setup P image psf (some a)
        = Except.error "ValueError: truth value of an array is ambiguous") := by
  refine ⟨?_, ?_, ?_⟩
  · intro z hz hznz
    by_cases h : z.im = 0
    · have hre : z.re ≠ 0 := fun hr => hznz ⟨hr, h⟩
      simp [uw_setup, npTruthy, np_iscomplex, hz, pyBoolArr, h, hre, Except.bind]
    · simp [uw_setup, npTruthy, np_iscomplex, hz, pyBoolArr, h, hznz, Except.bind]
  · intro hz
    simp [uw_setup, npTruthy, hz, Except.bind]
  · intro hlen
    cases hd : a.data with
    | nil => simp [uw_setup, npTruthy, hd, Except.bind]
    | cons x t =>
      cases t with
      | nil => rw [hd] at hlen; simp at hlen
      | cons y t2 => simp [uw_setup, npTruthy, hd, Except.bind]

/-- C6 amended, witness: a truthy real singleton regularizer is accepted and
converted through `ir2tf`. -/
theorem uw_setup_spec_witness :
    uw_setup trivUFT img2 psf1 (some psfReal)
      = Except.ok (⟨[2, 2], List.replicate 4 ⟨3, 0⟩⟩,
                   ⟨[2, 2], List.replicate 4 ⟨1, 0⟩⟩) := by
  have h := (uw_setup_spec trivUFT img2 psf1 psfReal).1 ⟨3, 0⟩ rfl (by norm_num)
  rw [h]
  norm_num [trivUFT, psfReal, img2, psf1, sumData, KC.ofReal, KC.add, List.replicate]

/-- C5 counterexample: with `burnin = 9`, `min_iter = 3`, `max_iter = 5` (a
configuration in which burn-in is not strictly below the iteration bounds) no
configuration error is raised: all five sampling iterations execute (both
chains have grown to six elements) and a zero image is returned — the zero
accumulator divided by the negative count `4 - 9`. -/
theorem unsupervised_bad_config_runs :
    unsupervised_wiener id qabs trivUFT oneRNG img1 psf1 (some regC) (some badParams)
      = Except.ok (⟨[1, 1], [⟨0, 0⟩]⟩,
                   ([1, 1, 1, 1, 1, 1], [1, 1, 1, 1, 1, 1])) := by
  norm_num [unsupervised_wiener, uw_setup, uw_core, npTruthy, np_iscomplex, pyBoolArr,
    gibbsRun, gibbsStep, gibbsSample, gibbsExcursion, gibbsPrecision, gibbsInit,
    gibbsBreak, deltaLtB, resolveParams, trivUFT, oneRNG, img1, psf1, regC, badParams,
    qabs, zipWith3, sumData, KC.add, KC.mul, KC.sub, KC.conj, KC.divR, KC.smul,
    KC.normSq, KC.ofReal, Except.bind]

/-- C10: with `user_params` omitted the sampler configuration is
`threshold = 1e-4`, `max_iter = 200`, `min_iter = 30`, `burnin = 15`, no
callback (so `burnin < min_iter < max_iter`), and a supplied dictionary
overrides exactly the keys it mentions. -/
theorem unsupervised_default_params (K : Type) [Field K] :
    resolveParams (none : Option (UserParams K)) = ⟨1 / 10000, 200, 30, 15, false⟩
    ∧ (resolveParams (none : Option (UserParams K))).burnin
        < (resolveParams (none : Option (UserParams K))).min_iter
    ∧ (resolveParams (none : Option (UserParams K))).min_iter
        < (resolveParams (none : Option (UserParams K))).max_iter
    ∧ ∀ u : UserParams K, resolveParams (some u)
        = ⟨u.threshold.getD (1 / 10000), u.max_iter.getD 200, u.min_iter.getD 30,
           u.burnin.getD 15, u.callback.getD false⟩ := by
  refine ⟨rfl, ?_, ?_, fun u => rfl⟩
  · show (15 : Nat) < 30
    decide
  · show (30 : Nat) < 200
    decide

/-- Helper: one bin of the balance-zero filter built from a unit transfer
coefficient multiplies the transformed image bin by one. -/
theorem ones_filter_mul [Field K] (cabs : KC K → K) (hone : cabs ⟨1, 0⟩ = 1)
    (r z : KC K) :
    KC.mul (KC.divR (KC.conj ⟨1, 0⟩) ((cabs ⟨1, 0⟩) ^ 2 + 0 * (cabs r) ^ 2)) z
      = z := by
  cases z with
  | mk a b => simp [KC.mul, KC.divR, KC.conj, hone]

/-- Helper: the balance-zero filter of an all-ones transfer function is the
identity on the transformed data. -/
theorem zip_ones_filter [Field K] (cabs : KC K → K) (hone : cabs ⟨1, 0⟩ = 1) :
    ∀ td rd : List (KC K), rd.length = td.length →
      List.zipWith KC.mul
        (List.zipWith
          (fun t r => KC.divR (KC.conj t) ((cabs t) ^ 2 + (0 : K) * (cabs r) ^ 2))
          (List.replicate td.length ⟨1, 0⟩) rd)
        td = td := by
  intro td
  induction td with
  | nil => intro rd _; simp
  | cons z zs ih =>
    intro rd h
    cases rd with
    | nil => simp at h
    | cons r rs =>
      simp only [List.length_cons, List.replicate_succ, List.zipWith_cons_cons]
      rw [ones_filter_mul cabs hone r z, ih rs (by simpa using h)]

/-- C9 counterexample: at the 3×3 unit-peak PSF with `balance = 5` and the
default regularizer, `wiener` does not return the input image — it raises the
truthiness `ValueError` before any filtering. -/
theorem wiener_identity_psf_not_input :
    wiener qabs trivUFT img2 delta3 5 none true
      = Except.error "ValueError: truth value of an array is ambiguous"
    ∧ wiener qabs trivUFT img2 delta3 5 none true ≠ Except.ok img2 := by
  constructor
  · rfl
  · intro h
    rw [show wiener qabs trivUFT img2 delta3 5 none true
        = Except.error "ValueError: truth value of an array is ambiguous" from rfl] at h
    exact Except.noConfusion h

/-- C9 amended: on the filter computation itself (lines 142–147), an identity
blur — an all-ones transfer function — reproduces the input image exactly when
`balance = 0` (given the unitary real transform pair); for a positive balance
the filter attenuates every bin where the regularizer transfer function is
nonzero, and the full call with the default regularizer raises beforehand. -/
theorem wiener_core_identity_at_zero_balance [Field K] [DecidableEq K]
    (cabs : KC K → K) (P : UFT K) (image reg tf : NpArr K)
    (htf : tf.data = List.replicate (P.urfft2 image).data.length ⟨1, 0⟩)
    (hsh : tf.shape = (P.urfft2 image).shape)
    (hreg : reg.data.length = (P.urfft2 image).data.length)
    (hone : cabs ⟨1, 0⟩ = 1)
    (hinv : P.uirfft2 (P.urfft2 image) = image) :
    wiener_core cabs P tf reg 0 image true = image := by
  have key : NpArr.mulA
      ⟨tf.shape,
        List.zipWith
          (fun t r => KC.divR (KC.conj t) ((cabs t) ^ 2 + (0 : K) * (cabs r) ^ 2))
          tf.data reg.data⟩
      (P.urfft2 image) = P.urfft2 image := by
    rw [NpArr.mulA, NpArr.map2]
    rw [htf, zip_ones_filter cabs hone (P.urfft2 image).data reg.data hreg, hsh]
  simp only [wiener_core, if_true]
  rw [key, hinv]

/-- C9 amended, witness: at the 2×2 image, an all-ones transfer function and
any regularizer data, balance `0` reproduces the image. -/
theorem wiener_core_identity_witness :
    wiener_core qabs trivUFT (NpArr.const [2, 2] 1)
      ⟨[2, 2], List.replicate 4 ⟨0, 1⟩⟩ 0 img2 true = img2 :=
  wiener_core_identity_at_zero_balance qabs trivUFT img2
    ⟨[2, 2], List.replicate 4 ⟨0, 1⟩⟩ (NpArr.const [2, 2] 1)
    (by rfl) rfl rfl (by norm_num [qabs]) rfl

/-- C7: `richardson_lucy` is exactly the `iterations`-fold application of the
update `estimate ↦ estimate · ((image / (estimate ⊛ psf)) ⊛ flip(psf))` to the
uniform `0.5` initial estimate of the image's shape — no early exit, no
convergence check, no clipping. -/
theorem richardson_lucy_is_iterated_update [Field K]
    (conv2d : NpArr K → NpArr K → NpArr K) (image psf : NpArr K) (n : Nat) :
    richardson_lucy conv2d image psf n
      = (fun est => NpArr.mulA est
          (conv2d (NpArr.divA image (conv2d est psf)) ⟨psf.shape, psf.data.reverse⟩))^[n]
          (NpArr.const image.shape (1 / 2)) := by
  induction n with
  | zero => rfl
  | succ m ih =>
    rw [Function.iterate_succ_apply', ← ih]
    simp only [richardson_lucy, List.range_succ, List.foldl_append, List.foldl_cons,
      List.foldl_nil]

/-- Projection: one step appends exactly the noise Gamma draw of shape
`image_size/2` and scale `2/‖image − x_sample·H‖²` to the noise chain. -/
theorem gibbsStep_gn_chain [Field K] (sq : K → K) (cabs : KC K → K)
    (env : GEnv K) (p : GParams K) (i : Nat) (s : GState K) :
    (gibbsStep sq cabs env p i s).gn_chain
      = s.gn_chain ++ [env.gammaN i ((env.image_size : K) / 2)
          (2 / env.quadNorm ⟨env.ishape,
            List.zipWith KC.sub env.image
              (List.zipWith KC.mul (gibbsSample sq env i s) env.trans_fct)⟩)] := rfl

/-- Projection: one step appends exactly the prior Gamma draw of shape
`(image_size - 1)/2` and scale `2/‖x_sample·D‖²` to the prior chain. -/
theorem gibbsStep_gx_chain [Field K] (sq : K → K) (cabs : KC K → K)
    (env : GEnv K) (p : GParams K) (i : Nat) (s : GState K) :
    (gibbsStep sq cabs env p i s).gx_chain
      = s.gx_chain ++ [env.gammaX i (((env.image_size : K) - 1) / 2)
          (2 / env.quadNorm ⟨env.ishape,
            List.zipWith KC.mul (gibbsSample sq env i s) env.reg⟩)] := rfl

/-- Projection: the posterior-mean accumulator update of one step. -/
theorem gibbsStep_x_postmean [Field K] (sq : K → K) (cabs : KC K → K)
    (env : GEnv K) (p : GParams K) (i : Nat) (s : GState K) :
    (gibbsStep sq cabs env p i s).x_postmean
      = if p.burnin < i
        then List.zipWith KC.add s.prev_x_postmean (gibbsSample sq env i s)
        else s.x_postmean := rfl

/-- Projection: the relative-change update of one step. -/
theorem gibbsStep_delta [Field K] (sq : K → K) (cabs : KC K → K)
    (env : GEnv K) (p : GParams K) (i : Nat) (s : GState K) :
    (gibbsStep sq cabs env p i s).delta
      = if p.burnin + 1 < i then
          some (((List.zipWith (fun a b => cabs (KC.sub a b))
              ((gibbsStep sq cabs env p i s).x_postmean.map
                (fun z => KC.divR z ((i : K) - (p.burnin : K))))
              (s.prev_x_postmean.map
                (fun z => KC.divR z ((i : K) - (p.burnin : K) - 1)))).sum
            / ((gibbsStep sq cabs env p i s).x_postmean.map cabs).sum)
            / ((i : K) - (p.burnin : K)))
        else s.delta := rfl

/-- Helper: the loop characterization — started at iteration `i` on the trace
state, the loop stops at the first iteration whose end-of-body stopping test
fires, or at the last iteration of the range, and returns the trace state
after the stopping iteration. -/
theorem gibbsRun_spec [LinearOrderedField K] (sq : K → K) (cabs : KC K → K)
    (env : GEnv K) (p : GParams K) :
    ∀ (n i fin : Nat) (s' : GState K), 1 ≤ n →
      gibbsRun sq cabs env p n i (gibbsIter sq cabs env p i) = (fin, s') →
      s' = gibbsIter sq cabs env p (fin + 1)
      ∧ i ≤ fin ∧ fin + 1 ≤ i + n
      ∧ (∀ j, i ≤ j → j < fin →
          gibbsBreak p j (gibbsIter sq cabs env p (j + 1)) = false)
      ∧ (fin + 1 < i + n →
          gibbsBreak p fin (gibbsIter sq cabs env p (fin + 1)) = true) := by
  intro n
  induction n with
  | zero => intro i fin s' h; exact absurd h (by omega)
  | succ m ih =>
    intro i fin s' _ hrun
    have hstep : gibbsStep sq cabs env p i (gibbsIter sq cabs env p i)
        = gibbsIter sq cabs env p (i + 1) := rfl
    simp only [gibbsRun] at hrun
    rw [hstep] at hrun
    by_cases hm : m = 0
    · rw [if_pos hm] at hrun
      injection hrun with hfin hs
      subst hfin
      subst hs
      refine ⟨rfl, Nat.le_refl _, by omega, ?_, ?_⟩
      · intro j h1 h2; omega
      · intro h; omega
    · rw [if_neg hm] at hrun
      by_cases hb : gibbsBreak p i (gibbsIter sq cabs env p (i + 1)) = true
      · rw [if_pos hb] at hrun
        injection hrun with hfin hs
        subst hfin
        subst hs
        refine ⟨rfl, Nat.le_refl _, by omega, ?_, fun _ => hb⟩
        intro j h1 h2; omega
      · rw [if_neg hb] at hrun
        obtain ⟨ha, hb2, hc, hd, he⟩ := ih (i + 1) fin s' (by omega) hrun
        refine ⟨ha, by omega, by omega, ?_, ?_⟩
        · intro j h1 h2
          rcases Nat.eq_or_lt_of_le h1 with h3 | h3
          · rw [← h3]
            exact Bool.eq_false_iff.mpr hb
          · exact hd j h3 h2
        · intro hlt
          exact he (by omega)

/-- C3: accumulation happens exactly when `iteration > burnin`; once
`iteration > burnin + 1` the relative change
`delta = sum(|current − previous|)/sum(|accumulated|)/(iteration − burnin)` is
stored; the loop stops at the first iteration with
`iteration > min_iter and delta < threshold` (a never-set `delta` is `NaN` and
compares false) or when the `max_iter` range is exhausted; the function
returns the inverse real transform of the accumulated sum divided by
`finalIteration − burnin`, together with both full chains. -/
theorem unsupervised_loop_spec [LinearOrderedField K] (sq : K → K)
    (cabs : KC K → K) (P : UFT K) (env : GEnv K) (p : GParams K)
    (tshape : List Nat) (fin : Nat) (s' : GState K)
    (hmax : 1 ≤ p.max_iter)
    (hrun : gibbsRun sq cabs env p p.max_iter 0 (gibbsInit env.trans_fct.length)
      = (fin, s')) :
    (∀ (i : Nat) (s : GState K), p.burnin < i →
        (gibbsStep sq cabs env p i s).x_postmean
          = List.zipWith KC.add s.prev_x_postmean (gibbsSample sq env i s))
    ∧ (∀ (i : Nat) (s : GState K), i ≤ p.burnin →
        (gibbsStep sq cabs env p i s).x_postmean = s.x_postmean)
    ∧ (∀ (i : Nat) (s : GState K), p.burnin + 1 < i →
        (gibbsStep sq cabs env p i s).delta
          = some (((List.zipWith (fun a b => cabs (KC.sub a b))
              ((gibbsStep sq cabs env p i s).x_postmean.map
                (fun z => KC.divR z ((i : K) - (p.burnin : K))))
              (s.prev_x_postmean.map
                (fun z => KC.divR z ((i : K) - (p.burnin : K) - 1)))).sum
            / ((gibbsStep sq cabs env p i s).x_postmean.map cabs).sum)
            / ((i : K) - (p.burnin : K))))
    ∧ (∀ (i : Nat) (s : GState K), i ≤ p.burnin + 1 →
        (gibbsStep sq cabs env p i s).delta = s.delta)
    ∧ s' = gibbsIter sq cabs env p (fin + 1)
    ∧ fin + 1 ≤ p.max_iter
    ∧ (∀ j, j < fin → gibbsBreak p j (gibbsIter sq cabs env p (j + 1)) = false)
    ∧ (fin + 1 < p.max_iter →
        gibbsBreak p fin (gibbsIter sq cabs env p (fin + 1)) = true)
    ∧ uw_core sq cabs P env p tshape
        = (P.uirfft2 ⟨tshape,
            s'.x_postmean.map (fun z => KC.divR z ((fin : K) - (p.burnin : K)))⟩,
           (s'.gn_chain, s'.gx_chain)) := by
  have h0 : gibbsIter sq cabs env p 0 = gibbsInit env.trans_fct.length := rfl
  rw [← h0] at hrun
  obtain ⟨ha, _, hc, hd, he⟩ :=
    gibbsRun_spec sq cabs env p p.max_iter 0 fin s' hmax hrun
  refine ⟨?_, ?_, ?_, ?_, ha, by omega, ?_, ?_, ?_⟩
  · intro i s h
    rw [gibbsStep_x_postmean, if_pos h]
  · intro i s h
    rw [gibbsStep_x_postmean, if_neg (by omega)]
  · intro i s h
    rw [gibbsStep_delta, if_pos h]
  · intro i s h
    rw [gibbsStep_delta, if_neg (by omega)]
  · intro j hj
    exact hd j (Nat.zero_le j) hj
  · intro h
    exact he (by omega)
  · rw [h0] at hrun
    simp only [uw_core, hrun]

/-- C3 witness: at a one-bin environment with `max_iter = 4` the returned
state is the trace state after the final iteration. -/
theorem unsupervised_loop_spec_witness :
    (gibbsRun id qabs env1 p1 4 0 (gibbsInit 1)).2
      = gibbsIter id qabs env1 p1 ((gibbsRun id qabs env1 p1 4 0 (gibbsInit 1)).1 + 1) :=
  (unsupervised_loop_spec id qabs trivUFT env1 p1 [1, 1]
      (gibbsRun id qabs env1 p1 4 0 (gibbsInit 1)).1
      (gibbsRun id qabs env1 p1 4 0 (gibbsInit 1)).2
      (by decide) rfl).2.2.2.2.1

/-- Helper: along the trace both chains keep the head `1` and have one more
element than the number of completed iterations. -/
theorem gibbsIter_chain_shape [LinearOrderedField K] (sq : K → K)
    (cabs : KC K → K) (env : GEnv K) (p : GParams K) :
    ∀ n, (gibbsIter sq cabs env p n).gn_chain.head? = some 1
      ∧ (gibbsIter sq cabs env p n).gn_chain.length = n + 1
      ∧ (gibbsIter sq cabs env p n).gx_chain.head? = some 1
      ∧ (gibbsIter sq cabs env p n).gx_chain.length = n + 1 := by
  intro n
  induction n with
  | zero => exact ⟨rfl, rfl, rfl, rfl⟩
  | succ m ih =>
    obtain ⟨h1, h2, h3, h4⟩ := ih
    have e1 : gibbsIter sq cabs env p (m + 1)
        = gibbsStep sq cabs env p m (gibbsIter sq cabs env p m) := rfl
    refine ⟨?_, ?_, ?_, ?_⟩
    · rw [e1, gibbsStep_gn_chain, List.head?_append, h1]; rfl
    · rw [e1, gibbsStep_gn_chain, List.length_append, h2]; rfl
    · rw [e1, gibbsStep_gx_chain, List.head?_append, h3]; rfl
    · rw [e1, gibbsStep_gx_chain, List.length_append, h4]; rfl

/-- Helper: along the trace every chain element is strictly positive as soon
as the Gamma oracles only produce strictly positive draws. -/
theorem gibbsIter_chain_pos [LinearOrderedField K] (sq : K → K)
    (cabs : KC K → K) (env : GEnv K) (p : GParams K)
    (hgn : ∀ (i : Nat) (a b : K), 0 < env.gammaN i a b)
    (hgx : ∀ (i : Nat) (a b : K), 0 < env.gammaX i a b) :
    ∀ n, (∀ x ∈ (gibbsIter sq cabs env p n).gn_chain, 0 < x)
      ∧ (∀ x ∈ (gibbsIter sq cabs env p n).gx_chain, 0 < x) := by
  intro n
  induction n with
  | zero =>
    constructor <;>
    · intro x hx
      have hx1 : x = 1 := by simpa [gibbsIter, gibbsInit] using hx
      rw [hx1]
      exact zero_lt_one
  | succ m ih =>
    obtain ⟨ih1, ih2⟩ := ih
    have e1 : gibbsIter sq cabs env p (m + 1)
        = gibbsStep sq cabs env p m (gibbsIter sq cabs env p m) := rfl
    constructor
    · intro x hx
      rw [e1, gibbsStep_gn_chain] at hx
      rcases List.mem_append.mp hx with h | h
      · exact ih1 x h
      · rw [List.mem_singleton.mp h]
        exact hgn _ _ _
    · intro x hx
      rw [e1, gibbsStep_gx_chain] at hx
      rcases List.mem_append.mp hx with h | h
      · exact ih2 x h
      · rw [List.mem_singleton.mp h]
        exact hgx _ _ _

/-- C8: on any completed run both returned chains begin with the seed `1`,
have exactly one element more than the number of completed iterations
(`fin + 1` iterations, so length `fin + 2` counting the seed), and — since
Gamma draws are strictly positive — contain only strictly positive values. -/
theorem unsupervised_chain_invariants [LinearOrderedField K] (sq : K → K)
    (cabs : KC K → K) (P : UFT K) (env : GEnv K) (p : GParams K)
    (tshape : List Nat) (fin : Nat) (s' : GState K)
    (hmax : 1 ≤ p.max_iter)
    (hrun : gibbsRun sq cabs env p p.max_iter 0 (gibbsInit env.trans_fct.length)
      = (fin, s'))
    (hgn : ∀ (i : Nat) (a b : K), 0 < env.gammaN i a b)
    (hgx : ∀ (i : Nat) (a b : K), 0 < env.gammaX i a b) :
    (uw_core sq cabs P env p tshape).2.1.head? = some 1
    ∧ (uw_core sq cabs P env p tshape).2.1.length = fin + 2
    ∧ (∀ x ∈ (uw_core sq cabs P env p tshape).2.1, 0 < x)
    ∧ (uw_core sq cabs P env p tshape).2.2.head? = some 1
    ∧ (uw_core sq cabs P env p tshape).2.2.length = fin + 2
    ∧ (∀ x ∈ (uw_core sq cabs P env p tshape).2.2, 0 < x) := by
  have h0 : gibbsIter sq cabs env p 0 = gibbsInit env.trans_fct.length := rfl
  rw [← h0] at hrun
  obtain ⟨ha, _, _, _, _⟩ :=
    gibbsRun_spec sq cabs env p p.max_iter 0 fin s' hmax hrun
  rw [h0] at hrun
  simp only [uw_core, hrun]
  rw [ha]
  obtain ⟨g1, g2, g3, g4⟩ := gibbsIter_chain_shape sq cabs env p (fin + 1)
  obtain ⟨q1, q2⟩ := gibbsIter_chain_pos sq cabs env p hgn hgx (fin + 1)
  exact ⟨g1, by rw [g2], q1, g3, by rw [g4], q2⟩

/-- C8 witness: the concrete one-bin run completes and its noise chain length
is the final loop index plus two. -/
theorem unsupervised_chain_invariants_witness :
    (uw_core id qabs trivUFT env1 p1 [1, 1]).2.1.length
      = (gibbsRun id qabs env1 p1 4 0 (gibbsInit 1)).1 + 2 :=
  (unsupervised_chain_invariants id qabs trivUFT env1 p1 [1, 1]
      (gibbsRun id qabs env1 p1 4 0 (gibbsInit 1)).1
      (gibbsRun id qabs env1 p1 4 0 (gibbsInit 1)).2
      (by decide) rfl
      (fun i a b => by norm_num [env1]) (fun i a b => by norm_num [env1])).2.1

/-- C5 amended: `unsupervised_wiener` performs no validation of `burnin`
against `min_iter`/`max_iter`: with `burnin ≥ min_iter` the Gibbs loop still
executes at least one sampling iteration (both chains grow beyond the seed)
and no configuration error is raised. -/
theorem unsupervised_no_validation [LinearOrderedField K] (sq : K → K)
    (cabs : KC K → K) (P : UFT K) (env : GEnv K) (p : GParams K)
    (tshape : List Nat)
    (_hbad : p.min_iter ≤ p.burnin) (hmax : 1 ≤ p.max_iter) :
    2 ≤ (uw_core sq cabs P env p tshape).2.1.length
    ∧ 2 ≤ (uw_core sq cabs P env p tshape).2.2.length := by
  have h0 : gibbsIter sq cabs env p 0 = gibbsInit env.trans_fct.length := rfl
  have hrun : gibbsRun sq cabs env p p.max_iter 0 (gibbsIter sq cabs env p 0)
      = ((gibbsRun sq cabs env p p.max_iter 0 (gibbsIter sq cabs env p 0)).1,
         (gibbsRun sq cabs env p p.max_iter 0 (gibbsIter sq cabs env p 0)).2) := rfl
  obtain ⟨ha, _, _, _, _⟩ :=
    gibbsRun_spec sq cabs env p p.max_iter 0 _ _ hmax hrun
  obtain ⟨_, g2, _, g4⟩ := gibbsIter_chain_shape sq cabs env p
    ((gibbsRun sq cabs env p p.max_iter 0 (gibbsIter sq cabs env p 0)).1 + 1)
  constructor
  · simp only [uw_core, ← h0]
    rw [ha, g2]
    omega
  · simp only [uw_core, ← h0]
    rw [ha, g4]
    omega

/-- C5 amended, witness: the bad configuration `burnin = 7 ≥ min_iter = 2`
still runs and grows both chains. -/
theorem unsupervised_no_validation_witness :
    2 ≤ (uw_core id qabs trivUFT env1 pBad [1, 1]).2.1.length
    ∧ 2 ≤ (uw_core id qabs trivUFT env1 pBad [1, 1]).2.2.length :=
  unsupervised_no_validation id qabs trivUFT env1 pBad [1, 1]
    (by decide) (by decide)

/-- Helper: the squared modulus is nonnegative. -/
theorem KC.normSq_nonneg [LinearOrderedRing K] (z : KC K) : 0 ≤ KC.normSq z :=
  add_nonneg (mul_self_nonneg _) (mul_self_nonneg _)

/-- C2: in every Gibbs iteration the per-bin precision equals
`gn[-1]·|H|² + gx[-1]·|D|²`; the excursion multiplies the two standard-normal
draws by the per-bin standard deviation `sqrt(0.5/precision)` (the code's
`sqrt(0.5)/sqrt(precision)`); the image sample is
`(gn[-1]·conj(H)/precision)·transformedImage + excursion`; and the chains are
extended by Gamma draws of shape `imageSize/2` and scale
`2/‖transformedImage − x_sample·H‖²`, and shape `(imageSize−1)/2` and scale
`2/‖x_sample·D‖²`. -/
theorem gibbs_step_algebra (env : GEnv ℝ) (p : GParams ℝ) (i : Nat)
    (s : GState ℝ)
    (hatf2 : env.atf2 = env.trans_fct.map (fun z => Real.sqrt (KC.normSq z) ^ 2))
    (hareg2 : env.areg2 = env.reg.map (fun z => Real.sqrt (KC.normSq z) ^ 2)) :
    gibbsPrecision env s
      = List.zipWith
          (fun h d => s.gn_chain.getLastD 0 * KC.normSq h
            + s.gx_chain.getLastD 0 * KC.normSq d)
          env.trans_fct env.reg
    ∧ gibbsExcursion Real.sqrt env i s
      = zipWith3
          (fun pr n1 n2 => KC.smul (Real.sqrt ((1 / 2) / pr)) ⟨n1, n2⟩)
          (gibbsPrecision env s) (env.nre i) (env.nim i)
    ∧ gibbsSample Real.sqrt env i s
      = List.zipWith KC.add
          (List.zipWith KC.mul
            (List.zipWith
              (fun t pr => KC.divR (KC.smul (s.gn_chain.getLastD 0) (KC.conj t)) pr)
              env.trans_fct (gibbsPrecision env s))
            env.image)
          (gibbsExcursion Real.sqrt env i s)
    ∧ (gibbsStep Real.sqrt (fun z => Real.sqrt (KC.normSq z)) env p i s).gn_chain
      = s.gn_chain ++ [env.gammaN i ((env.image_size : ℝ) / 2)
          (2 / env.quadNorm ⟨env.ishape,
            List.zipWith KC.sub env.image
              (List.zipWith KC.mul (gibbsSample Real.sqrt env i s) env.trans_fct)⟩)]
    ∧ (gibbsStep Real.sqrt (fun z => Real.sqrt (KC.normSq z)) env p i s).gx_chain
      = s.gx_chain ++ [env.gammaX i (((env.image_size : ℝ) - 1) / 2)
          (2 / env.quadNorm ⟨env.ishape,
            List.zipWith KC.mul (gibbsSample Real.sqrt env i s) env.reg⟩)] := by
  refine ⟨?_, ?_, rfl, rfl, rfl⟩
  · simp only [gibbsPrecision]
    rw [hatf2, hareg2, List.zipWith_map]
    have hf : (fun (a b : KC ℝ) =>
        s.gn_chain.getLastD 0 * Real.sqrt (KC.normSq a) ^ 2
          + s.gx_chain.getLastD 0 * Real.sqrt (KC.normSq b) ^ 2)
        = fun a b => s.gn_chain.getLastD 0 * KC.normSq a
          + s.gx_chain.getLastD 0 * KC.normSq b := by
      funext a b
      rw [Real.sq_sqrt (KC.normSq_nonneg a), Real.sq_sqrt (KC.normSq_nonneg b)]
    rw [hf]
  · simp only [gibbsExcursion]
    have hf : (fun (pr n1 n2 : ℝ) =>
        KC.smul (Real.sqrt (1 / 2) / Real.sqrt pr) (⟨n1, n2⟩ : KC ℝ))
        = fun pr n1 n2 => KC.smul (Real.sqrt ((1 / 2) / pr)) ⟨n1, n2⟩ := by
      funext pr n1 n2
      rw [Real.sqrt_div (by norm_num) pr]
    rw [hf]

/-- C2 witness: the precision identity at a concrete one-bin state. -/
theorem gibbs_step_algebra_witness :
    gibbsPrecision
      (⟨[⟨2, 0⟩], [1, 1], [⟨1, 0⟩], [⟨1, 0⟩], [1], [1], 1, fun _ => 0,
        fun _ => [0], fun _ => [0], fun _ _ _ => 1, fun _ _ _ => 1⟩ : GEnv ℝ)
      (gibbsInit 1)
      = List.zipWith
          (fun h d => (gibbsInit 1 : GState ℝ).gn_chain.getLastD 0 * KC.normSq h
            + (gibbsInit 1 : GState ℝ).gx_chain.getLastD 0 * KC.normSq d)
          [⟨1, 0⟩] [⟨1, 0⟩] :=
  (gibbs_step_algebra
      ⟨[⟨2, 0⟩], [1, 1], [⟨1, 0⟩], [⟨1, 0⟩], [1], [1], 1, fun _ => 0,
        fun _ => [0], fun _ => [0], fun _ _ _ => 1, fun _ _ _ => 1⟩
      ⟨1, 1, 1, 1, false⟩ 0 (gibbsInit 1)
      (by norm_num [KC.normSq, Real.sqrt_one])
      (by norm_num [KC.normSq, Real.sqrt_one])).1
